import Mathlib

/-!
Verification of the prime-throughput benchmark in src/cpu.py: the simple
sieve of Eratosthenes, the per-worker base-prime cache, the segmented
siever, and the coordinator loop of main. Python bytearrays become
List Bool, the module-level worker globals become an explicit Cache value
threaded through the functions, and how the coordinator interacts with the
process pool and the wall clock becomes a trace of timestamped events.
-/

/-- One Python extended-slice assignment of zero bytes: set the list entries
at start, start+step, ..., cnt entries in all, to false. A set at an index
past the end of the list is a no-op, which matches Python because the slice
never selects an index outside the buffer. -/
def setFalseStep (l : List Bool) (start step cnt : Nat) : List Bool :=
  match cnt with
  | 0 => l
  | k+1 => setFalseStep (l.set start false) (start + step) step k

/-- Length of the replacement bytes in the slice assignment of sieve_simple,
Python (n - p*p)//p + 1: an int that may be negative, in which case the
replacement is empty. Division here is Int E-division, which agrees with
Python floor division for a positive divisor. -/
def simpleMarkCount (n p : Nat) : Int := ((n : Int) - p * p) / p + 1

/-- The body of the marking loop in sieve_simple (src/cpu.py lines 22-24):
when sieve[p] is still set, clear every multiple of p from p*p on. -/
def sieveStep (n : Nat) (l : List Bool) (p : Nat) : List Bool :=
  if l.getD p false then setFalseStep l (p * p) p (simpleMarkCount n p).toNat else l

/-- The loop for p in range(2, limit + 1) of sieve_simple, run for cnt
values of p starting at p. -/
def sieveLoop (n p cnt : Nat) (l : List Bool) : List Bool :=
  match cnt with
  | 0 => l
  | k+1 => sieveLoop n (p+1) k (sieveStep n l p)

/-- sieve_simple from src/cpu.py lines 16-25. The bytearray of n+1 one-bytes
with indices 0 and 1 cleared is the initial list; Python int(n**0.5) is
modelled by Nat.sqrt n, the floor square root the expression computes
whenever the float arithmetic is exact. -/
def sieve_simple (n : Nat) : List Nat :=
  if n < 2 then []
  else
    let l0 := ((List.replicate (n + 1) true).set 0 false).set 1 false
    let l := sieveLoop n 2 (Nat.sqrt n - 1) l0
    (List.range (n + 1)).filter (fun i => l.getD i false)

/-- The per-worker module globals _base_primes and _base_max of src/cpu.py,
as an explicit state value. -/
structure Cache where
  base_primes : List Nat
  base_max : Nat
deriving DecidableEq

/-- init_worker from src/cpu.py lines 27-30. -/
def init_worker (initial_base : Nat) : Cache :=
  ⟨sieve_simple initial_base, initial_base⟩

/-- ensure_base_primes from src/cpu.py lines 32-36: rebuild the table only
when the requested limit exceeds the current bound. -/
def ensure_base_primes (limit : Nat) (c : Cache) : Cache :=
  if c.base_max < limit then ⟨sieve_simple limit, limit⟩ else c

/-- The base-prime limit int(math.isqrt(high)) + 1 computed at src/cpu.py
line 42 before ensure_base_primes is called. -/
def segLimit (high : Nat) : Nat := Nat.sqrt high + 1

/-- Length of the replacement bytes in the segment slice assignment, Python
((size - 1 - start) // p) + 1 at src/cpu.py line 52, where size is a Python
int that may be negative. -/
def segMarkCount (size : Int) (start p : Nat) : Int := (size - 1 - start) / p + 1

/-- The marking start offset for base prime p, src/cpu.py lines 46-50:
start = (-(low % p) + p) % p, then start += p when low + start == p. For
natural low and positive p the Python expression equals (p - low % p) % p. -/
def segStart (low p : Nat) : Nat :=
  let s := (p - low % p) % p
  if low + s = p then s + p else s

/-- One base prime's marking pass over the segment buffer, src/cpu.py
lines 46-52. -/
def markSeg (low size : Nat) (s : List Bool) (p : Nat) : List Bool :=
  setFalseStep s (segStart low p) p (segMarkCount (size : Int) (segStart low p) p).toNat

/-- segmented_sieve_segment from src/cpu.py lines 38-53, with the worker
globals passed and returned as an explicit cache. When high is below the
clamped low the Nat subtraction gives size 0, matching the empty bytearray
Python builds from a nonpositive size. -/
def segmented_sieve_segment (args : Nat × Nat × Nat) (c : Cache) : Nat × Cache :=
  let low0 := args.1
  let high := args.2.1
  let low := if low0 < 2 then 2 else low0
  let limit := segLimit high
  let c' := ensure_base_primes limit c
  let base := c'.base_primes.filter (fun p => decide (p ≤ limit))
  let size := high - low
  let sieve := base.foldl (markSeg low size) (List.replicate size true)
  (sieve.count true, c')

/-- An event seen by the coordinator loop of main (src/cpu.py lines 70-77):
a segment result arriving from pool.imap_unordered, tagged with the elapsed
wall-clock reading the coordinator takes right after absorbing it, or a
KeyboardInterrupt raised while the loop runs. -/
inductive Ev
  | res (cnt elapsed : Nat)
  | intr
deriving DecidableEq

/-- The prime count carried by an event. -/
def evCount : Ev → Nat
  | Ev.res c _ => c
  | Ev.intr => 0

/-- Whether an event is a result that arrives strictly before the deadline. -/
def isEarlyRes (D : Nat) : Ev → Bool
  | Ev.res _ t => decide (t < D)
  | Ev.intr => false

/-- The for-loop over pool.imap_unordered in main: add each arriving count
to the totals, then break once the elapsed reading is at least
DURATION_SECS; a KeyboardInterrupt aborts the loop and the enclosing try
block, so no totals survive it. Returns none when interrupted and
some (total_primes, total_segments) otherwise. -/
def mainLoop (D : Nat) : List Ev → Nat → Nat → Option (Nat × Nat)
  | [], tp, ts => some (tp, ts)
  | Ev.intr :: _, _, _ => none
  | Ev.res cnt el :: rest, tp, ts =>
    if D ≤ el then some (tp + cnt, ts + 1)
    else mainLoop D rest (tp + cnt) (ts + 1)

/-- What main prints when it finishes: the performance summary with the
final elapsed reading and the accumulated totals, or only the notice from
the except KeyboardInterrupt handler (src/cpu.py lines 63-95). -/
inductive MainOutput
  | summary (elapsed totalPrimes totalSegments : Nat)
  | interrupted
deriving DecidableEq

/-- Observable outcome of main on a given event trace: run the loop inside
try, print the summary with the totals when it returns, and print only the
interruption notice when a KeyboardInterrupt escapes the loop. -/
def mainModel (D : Nat) (evs : List Ev) (finalElapsed : Nat) : MainOutput :=
  match mainLoop D evs 0 0 with
  | none => MainOutput.interrupted
  | some (tp, ts) => MainOutput.summary finalElapsed tp ts

/-- Whether the loop actually reaches a KeyboardInterrupt before its
deadline break: every event before the interrupt is a result arriving
strictly before the deadline. -/
def interruptReached (D : Nat) : List Ev → Bool
  | [] => false
  | Ev.intr :: _ => true
  | Ev.res _ el :: rest => if D ≤ el then false else interruptReached D rest

/-- Bounded primality test used to state completeness executably: m is at
least 2 and no d with 2 ≤ d < m divides m. -/
def isPrimeB (m : Nat) : Bool :=
  decide (2 ≤ m) && (List.range m).all (fun d => decide (d < 2) || !decide (d ∣ m))

/-- The primes below n, in increasing order. -/
def primesBelow (n : Nat) : List Nat := (List.range n).filter isPrimeB

/-- Cache completeness invariant: the stored table is exactly the strictly
increasing list of all primes up to base_max. -/
def CacheInv (c : Cache) : Prop := c.base_primes = primesBelow (c.base_max + 1)

/-- Apply a sequence of ensure_base_primes calls to a cache. -/
def applyEnsures (c : Cache) (ls : List Nat) : Cache :=
  ls.foldl (fun c l => ensure_base_primes l c) c

/-- Adjacent pairs of a list of cut points: the consecutive segments the
cut points bound. -/
def adjPairs : List Nat → List (Nat × Nat)
  | a :: b :: t => (a, b) :: adjPairs (b :: t)
  | _ => []

/-- Sum of the per-segment prime counts segmented_sieve_segment returns on
the listed segments, each call started from cache c. -/
def segmentsSum (c : Cache) (l : List (Nat × Nat)) : Nat :=
  (l.map (fun s => (segmented_sieve_segment (s.1, s.2, 0) c).1)).sum

/-- Number of indices selected by the Python extended slice
[start : stop : step] on a buffer of length L, for positive step and
nonnegative start, following slice.indices: resolve a negative stop against
L and clamp both endpoints into [0, L], then count ceil((stop-start)/step). -/
def sliceLen (L start : Nat) (stop : Int) (step : Nat) : Nat :=
  (((if stop < 0 then max (stop + L) 0 else min stop L) - min (start : Int) L + step - 1)
    / step).toNat

/-- Loop invariant for the simple sieve: the buffer has length n+1 and
entry i is still set exactly when i is at least 2 and no prime q below P
with q*q ≤ i divides i. -/
def Good (n P : Nat) (l : List Bool) : Prop :=
  l.length = n + 1 ∧
  ∀ i, i ≤ n →
    (l.getD i false = true ↔
      (2 ≤ i ∧ ∀ q, Nat.Prime q → q < P → ¬(q ∣ i ∧ q * q ≤ i)))

instance (c : Cache) : Decidable (CacheInv c) := by
  unfold CacheInv
  infer_instance

theorem set_false_getD (l : List Bool) (j i : Nat) :
    (l.set j false).getD i false = (l.getD i false && !decide (i = j)) := by
  induction l generalizing i j with
  | nil => simp
  | cons a t ih =>
    cases j with
    | zero => cases i <;> simp
    | succ j =>
      cases i with
      | zero => simp
      | succ m => simpa using ih j m

theorem setFalseStep_length (l : List Bool) (start step cnt : Nat) :
    (setFalseStep l start step cnt).length = l.length := by
  induction cnt generalizing l start with
  | zero => rfl
  | succ k ih => simp [setFalseStep, ih]

theorem setFalseStep_getD (l : List Bool) (start step cnt i : Nat) :
    ((setFalseStep l start step cnt).getD i false = true ↔
      (l.getD i false = true ∧ ∀ k, k < cnt → i ≠ start + k * step)) := by
  induction cnt generalizing l start with
  | zero => simp [setFalseStep]
  | succ k ih =>
    rw [setFalseStep, ih, set_false_getD]
    simp only [Bool.and_eq_true, Bool.not_eq_true', decide_eq_false_iff_not]
    constructor
    · rintro ⟨⟨h1, hne⟩, h2⟩
      refine ⟨h1, ?_⟩
      intro m hm
      rcases m with _ | m'
      · simpa using hne
      · intro heq
        refine h2 m' (by omega) ?_
        rw [heq, Nat.succ_mul]
        ring
    · rintro ⟨h1, h2⟩
      refine ⟨⟨h1, by simpa using h2 0 (by omega)⟩, ?_⟩
      intro m hm heq
      refine h2 (m + 1) (by omega) ?_
      rw [heq, Nat.succ_mul]
      ring

theorem replicate_getD (n i : Nat) :
    (List.replicate n true).getD i false = decide (i < n) := by
  induction n generalizing i with
  | zero => simp
  | succ k ih =>
    cases i with
    | zero => simp [List.replicate_succ]
    | succ j => simpa [List.replicate_succ, Nat.succ_lt_succ_iff] using ih j

theorem count_true_eq (l : List Bool) :
    l.count true = ((List.range l.length).filter (fun i => l.getD i false)).length := by
  induction l with
  | nil => rfl
  | cons a t ih =>
    rcases a with _ | _ <;>
      simp [List.range_succ_eq_map, List.filter_cons, List.filter_map,
        Function.comp_def, List.count_cons, ih]

theorem markCount_toNat_spec (N : Int) (start p k : Nat) (hp : 1 ≤ p) :
    (k < ((N - start) / p + 1).toNat) ↔ ((start : Int) + k * p ≤ N) := by
  rcases le_or_lt (start : Int) N with h | h
  · obtain ⟨m, hm⟩ : ∃ m : Nat, N - start = (m : Int) := ⟨(N - start).toNat, by omega⟩
    rw [hm, ← Int.ofNat_ediv]
    have key : ((start : Int) + ↑k * ↑p ≤ N) ↔ (start + k * p ≤ start + m) := by
      rw [show N = (start : Int) + (m : Int) from by omega]
      exact_mod_cast Iff.rfl
    rw [key]
    constructor
    · intro hk
      have hk' : k ≤ m / p := by omega
      have h2 := (Nat.le_div_iff_mul_le hp).mp hk'
      omega
    · intro hk
      have h2 := (Nat.le_div_iff_mul_le hp).mpr (show k * p ≤ m by omega)
      omega
  · have h2 : (N - ↑start) / ↑p < 0 := Int.ediv_neg' (by omega) (by omega)
    constructor
    · intro hk
      exfalso
      omega
    · intro hk
      exfalso
      have h3 : (0 : Int) ≤ (k : Int) * p := by positivity
      omega

theorem simpleMarkCount_spec (n p k : Nat) (hp : 1 ≤ p) :
    (k < (simpleMarkCount n p).toNat) ↔ p * p + k * p ≤ n := by
  have h := markCount_toNat_spec (n : Int) (p * p) p k hp
  have e1 : simpleMarkCount n p = ((n : Int) - ↑(p * p)) / ↑p + 1 := by
    simp only [simpleMarkCount]
    push_cast
    ring_nf
  rw [e1, h]
  exact_mod_cast Iff.rfl

theorem segMarkCount_spec (size start p k : Nat) (hp : 1 ≤ p) :
    (k < (segMarkCount (size : Int) start p).toNat) ↔ start + k * p < size := by
  have h := markCount_toNat_spec ((size : Int) - 1) start p k hp
  have e1 : segMarkCount (size : Int) start p = ((size : Int) - 1 - ↑start) / ↑p + 1 := rfl
  rw [e1, h]
  constructor
  · intro h'
    have h2 : ((start + k * p : Nat) : Int) < (size : Int) := by push_cast; omega
    exact_mod_cast h2
  · intro h'
    have h2 : ((start + k * p : Nat) : Int) < (size : Int) := by exact_mod_cast h'
    push_cast at h2
    omega

theorem prime_no_factor {i : Nat} (hi : Nat.Prime i) (q : Nat) (hq : Nat.Prime q) :
    ¬(q ∣ i ∧ q * q ≤ i) := by
  rintro ⟨hd, hsq⟩
  rcases Nat.Prime.eq_one_or_self_of_dvd hi q hd with h | h
  · exact absurd h (Nat.Prime.ne_one hq)
  · subst h
    nlinarith [hq.two_le]

theorem composite_small_factor {i : Nat} (h2 : 2 ≤ i) (hi : ¬ i.Prime) :
    ∃ q, Nat.Prime q ∧ q ∣ i ∧ q * q ≤ i ∧ q < i := by
  have hne : i ≠ 1 := by omega
  refine ⟨i.minFac, Nat.minFac_prime hne, Nat.minFac_dvd i, ?_, ?_⟩
  · have h3 := Nat.minFac_sq_le_self (show 0 < i by omega) hi
    nlinarith [h3]
  · rcases Nat.lt_or_ge i.minFac i with h | h
    · exact h
    · exfalso
      have hle := Nat.minFac_le (show 0 < i by omega)
      have heq : i.minFac = i := le_antisymm hle h
      exact hi (heq ▸ Nat.minFac_prime hne)

theorem no_small_factor_iff_prime (p : Nat) (h2 : 2 ≤ p) :
    (∀ q, Nat.Prime q → q < p → ¬(q ∣ p ∧ q * q ≤ p)) ↔ p.Prime := by
  constructor
  · intro h
    by_contra hnp
    obtain ⟨q, hq, hqd, hqs, hql⟩ := composite_small_factor h2 hnp
    exact h q hq hql ⟨hqd, hqs⟩
  · intro hp q hq hlt
    exact prime_no_factor hp q hq

theorem isPrimeB_iff (m : Nat) : isPrimeB m = true ↔ m.Prime := by
  rw [isPrimeB]
  simp only [Bool.and_eq_true, decide_eq_true_eq, List.all_eq_true, List.mem_range,
    Bool.or_eq_true, Bool.not_eq_true', decide_eq_false_iff_not]
  rw [Nat.prime_def_lt]
  constructor
  · rintro ⟨hm, hd⟩
    refine ⟨hm, fun d hdm hdvd => ?_⟩
    rcases hd d hdm with h | h
    · rcases (show d = 0 ∨ d = 1 from by omega) with rfl | rfl
      · exact absurd (Nat.eq_zero_of_zero_dvd hdvd) (by omega)
      · rfl
    · exact absurd hdvd h
  · rintro ⟨hm, hd⟩
    refine ⟨hm, fun d hdm => ?_⟩
    by_cases hdvd : d ∣ m
    · have h3 := hd d hdm hdvd
      left
      omega
    · right
      exact hdvd

theorem bool_eq_of_iff {a b : Bool} (h : a = true ↔ b = true) : a = b := by
  rcases a with _ | _ <;> rcases b with _ | _ <;> simp_all

theorem primesBelow_mem (m n : Nat) : m ∈ primesBelow n ↔ (m.Prime ∧ m < n) := by
  simp [primesBelow, List.mem_filter, List.mem_range, isPrimeB_iff, and_comm]

theorem primesBelow_sorted (n : Nat) : List.Sorted (· < ·) (primesBelow n) :=
  List.Pairwise.filter _ (List.pairwise_lt_range n)

theorem primesBelow_filter_le (M limit : Nat) (h : limit ≤ M) :
    (primesBelow (M + 1)).filter (fun p => decide (p ≤ limit)) = primesBelow (limit + 1) := by
  unfold primesBelow
  rw [List.filter_filter]
  obtain ⟨d, hd⟩ : ∃ d, M + 1 = (limit + 1) + d := ⟨M - limit, by omega⟩
  rw [hd, List.range_add, List.filter_append]
  have h1 : (List.range (limit + 1)).filter (fun a => decide (a ≤ limit) && isPrimeB a) =
      (List.range (limit + 1)).filter isPrimeB := by
    apply List.filter_congr
    intro x hx
    rw [List.mem_range] at hx
    simp [show x ≤ limit from by omega]
  have h2 : ((List.range d).map (fun x => limit + 1 + x)).filter
      (fun a => decide (a ≤ limit) && isPrimeB a) = [] := by
    rw [List.filter_eq_nil_iff]
    intro a ha
    rw [List.mem_map] at ha
    obtain ⟨x, hx, rfl⟩ := ha
    simp [show ¬(limit + 1 + x ≤ limit) from by omega]
  rw [h1, h2, List.append_nil]

theorem simpleMark_mem_iff (n p i : Nat) (hp : 1 ≤ p) (hin : i ≤ n) :
    (∃ k, k < (simpleMarkCount n p).toNat ∧ i = p * p + k * p) ↔ (p ∣ i ∧ p * p ≤ i) := by
  constructor
  · rintro ⟨k, hk, rfl⟩
    exact ⟨⟨p + k, by ring⟩, by omega⟩
  · rintro ⟨⟨m, rfl⟩, hsq⟩
    have hpm : p ≤ m := Nat.le_of_mul_le_mul_left hsq (by omega)
    have heq : p * p + (m - p) * p = p * m := by
      have hm : p + (m - p) = m := by omega
      calc p * p + (m - p) * p = p * (p + (m - p)) := by ring
        _ = p * m := by rw [hm]
    refine ⟨m - p, ?_, heq.symm⟩
    rw [simpleMarkCount_spec n p (m - p) hp, heq]
    exact hin

theorem good_two (n : Nat) :
    Good n 2 (((List.replicate (n + 1) true).set 0 false).set 1 false) := by
  constructor
  · simp
  · intro i hi
    rw [set_false_getD, set_false_getD, replicate_getD]
    constructor
    · intro h
      simp only [Bool.and_eq_true, Bool.not_eq_true', decide_eq_false_iff_not,
        decide_eq_true_eq] at h
      refine ⟨by omega, ?_⟩
      intro q hq hlt
      exact absurd hq.two_le (by omega)
    · rintro ⟨h2, _⟩
      simp only [Bool.and_eq_true, Bool.not_eq_true', decide_eq_false_iff_not,
        decide_eq_true_eq]
      exact ⟨⟨by omega, by omega⟩, by omega⟩

theorem good_step (n p : Nat) (l : List Bool) (h : Good n p l) (h2 : 2 ≤ p) (hpn : p ≤ n) :
    Good n (p + 1) (sieveStep n l p) := by
  obtain ⟨hlen, hchar⟩ := h
  have hp1 : 1 ≤ p := by omega
  have hpchar := hchar p hpn
  rw [sieveStep]
  by_cases hb : l.getD p false = true
  · rw [if_pos hb]
    have hpprime : p.Prime := by
      rw [← no_small_factor_iff_prime p h2]
      exact (hpchar.mp hb).2
    refine ⟨by rw [setFalseStep_length]; exact hlen, ?_⟩
    intro i hi
    rw [setFalseStep_getD, hchar i hi]
    constructor
    · rintro ⟨⟨hi2, hq⟩, hnk⟩
      refine ⟨hi2, ?_⟩
      intro q hqp hqlt
      rcases (show q < p ∨ q = p from by omega) with hlt | rfl
      · exact hq q hqp hlt
      · rintro ⟨hdvd, hsq⟩
        obtain ⟨k, hk, hik⟩ := (simpleMark_mem_iff n q i hp1 hi).mpr ⟨hdvd, hsq⟩
        exact hnk k hk hik
    · rintro ⟨hi2, hq⟩
      refine ⟨⟨hi2, fun q hqp hqlt => hq q hqp (by omega)⟩, ?_⟩
      intro k hk hik
      exact hq p hpprime (by omega) ((simpleMark_mem_iff n p i hp1 hi).mp ⟨k, hk, hik⟩)
  · rw [if_neg hb]
    have hnotprime : ¬ p.Prime := by
      intro hp
      apply hb
      rw [hpchar]
      exact ⟨h2, (no_small_factor_iff_prime p h2).mpr hp⟩
    refine ⟨hlen, ?_⟩
    intro i hi
    rw [hchar i hi]
    constructor
    · rintro ⟨hi2, hq⟩
      refine ⟨hi2, ?_⟩
      intro q hqp hqlt
      rcases (show q < p ∨ q = p from by omega) with hlt | rfl
      · exact hq q hqp hlt
      · exact absurd hqp hnotprime
    · rintro ⟨hi2, hq⟩
      exact ⟨hi2, fun q hqp hqlt => hq q hqp (by omega)⟩

theorem sieveLoop_good (n : Nat) (cnt : Nat) :
    ∀ p l, Good n p l → 2 ≤ p → p + cnt ≤ n + 1 →
      Good n (p + cnt) (sieveLoop n p cnt l) := by
  induction cnt with
  | zero =>
    intro p l h _ _
    simpa [sieveLoop] using h
  | succ k ih =>
    intro p l h h2 hle
    rw [sieveLoop]
    have h3 := ih (p + 1) (sieveStep n l p) (good_step n p l h h2 (by omega)) (by omega)
      (by omega)
    have heq : p + 1 + k = p + (k + 1) := by omega
    rw [heq] at h3
    exact h3

theorem below_sqrt_iff_prime (n i : Nat) (hin : i ≤ n) :
    ((2 ≤ i ∧ ∀ q, Nat.Prime q → q < Nat.sqrt n + 1 → ¬(q ∣ i ∧ q * q ≤ i)) ↔ i.Prime) := by
  constructor
  · rintro ⟨h2, hq⟩
    by_contra hnp
    obtain ⟨q, hqp, hqd, hqs, hql⟩ := composite_small_factor h2 hnp
    refine hq q hqp ?_ ⟨hqd, hqs⟩
    have h3 : q ≤ Nat.sqrt n := Nat.le_sqrt.mpr (le_trans hqs hin)
    omega
  · intro hp
    refine ⟨hp.two_le, ?_⟩
    intro q hqp hqlt
    exact prime_no_factor hp q hqp

theorem sieve_simple_eq (n : Nat) : sieve_simple n = primesBelow (n + 1) := by
  by_cases hn : n < 2
  · rw [sieve_simple, if_pos hn]
    rcases (show n = 0 ∨ n = 1 from by omega) with rfl | rfl
    · decide
    · decide
  · push_neg at hn
    rw [sieve_simple, if_neg (by omega)]
    have hs1 : 1 ≤ Nat.sqrt n := by
      have h3 := Nat.le_sqrt.mpr (show 1 * 1 ≤ n by omega)
      omega
    have hsn : Nat.sqrt n ≤ n := Nat.sqrt_le_self n
    have hgood := sieveLoop_good n (Nat.sqrt n - 1) 2
      (((List.replicate (n + 1) true).set 0 false).set 1 false)
      (good_two n) (by omega) (by omega)
    have heq : 2 + (Nat.sqrt n - 1) = Nat.sqrt n + 1 := by omega
    rw [heq] at hgood
    obtain ⟨hlen, hchar⟩ := hgood
    unfold primesBelow
    apply List.filter_congr
    intro i hi
    rw [List.mem_range] at hi
    apply bool_eq_of_iff
    rw [hchar i (by omega), isPrimeB_iff]
    exact below_sqrt_iff_prime n i (by omega)

theorem start0_lt (low p : Nat) (hp : 1 ≤ p) : (p - low % p) % p < p :=
  Nat.mod_lt _ (by omega)

theorem dvd_low_add_start0 (low p : Nat) (hp : 1 ≤ p) :
    p ∣ (low + (p - low % p) % p) := by
  by_cases hz : low % p = 0
  · rw [hz, Nat.sub_zero, Nat.mod_self, Nat.add_zero]
    exact Nat.dvd_of_mod_eq_zero hz
  · have h1 : low % p < p := Nat.mod_lt _ (by omega)
    have h2 : (p - low % p) % p = p - low % p := Nat.mod_eq_of_lt (by omega)
    rw [h2]
    have hdm := Nat.div_add_mod low p
    refine ⟨low / p + 1, ?_⟩
    have h3 : p * (low / p + 1) = p * (low / p) + p := by ring
    omega

theorem mod_eq_start0_iff (low p i : Nat) (hp : 1 ≤ p) :
    (p ∣ (low + i)) ↔ i % p = (p - low % p) % p := by
  constructor
  · intro hd
    have h0 := dvd_low_add_start0 low p hp
    have hmod : (low + i) % p = (low + (p - low % p) % p) % p := by
      rw [Nat.mod_eq_zero_of_dvd hd, Nat.mod_eq_zero_of_dvd h0]
    have hme : i % p = (p - low % p) % p % p :=
      Nat.ModEq.add_left_cancel' low hmod
    rwa [Nat.mod_eq_of_lt (start0_lt low p hp)] at hme
  · intro hmod
    have h0 := dvd_low_add_start0 low p hp
    have hdm := Nat.div_add_mod i p
    have h1 : low + i = (low + (p - low % p) % p) + p * (i / p) := by omega
    rw [h1]
    exact Nat.dvd_add h0 (dvd_mul_right p (i / p))

theorem exists_start0_iff (low p i : Nat) (hp : 1 ≤ p) :
    (∃ k, i = (p - low % p) % p + k * p) ↔ i % p = (p - low % p) % p := by
  constructor
  · rintro ⟨k, rfl⟩
    rw [Nat.add_mul_mod_self_right]
    exact Nat.mod_eq_of_lt (start0_lt low p hp)
  · intro h
    refine ⟨i / p, ?_⟩
    have hdm := Nat.div_add_mod i p
    have h2 := Nat.mul_comm (i / p) p
    omega

theorem segStart_mem_iff (low size p i : Nat) (hp : 1 ≤ p) (hl : 1 ≤ low) :
    (∃ k, k < (segMarkCount (size : Int) (segStart low p) p).toNat ∧
        i = segStart low p + k * p) ↔
      (i < size ∧ p ∣ (low + i) ∧ low + i ≠ p) := by
  have hs0 := start0_lt low p hp
  by_cases hif : low + (p - low % p) % p = p
  · have hseg : segStart low p = (p - low % p) % p + p := by
      simp only [segStart]
      rw [if_pos hif]
    rw [hseg]
    constructor
    · rintro ⟨k, hk, rfl⟩
      rw [segMarkCount_spec _ _ _ _ hp] at hk
      have hsm : (k + 1) * p = k * p + p := by ring
      refine ⟨by omega, ?_, by omega⟩
      rw [mod_eq_start0_iff low p _ hp]
      rw [show (p - low % p) % p + p + k * p = (p - low % p) % p + (k + 1) * p from by omega]
      rw [Nat.add_mul_mod_self_right]
      exact Nat.mod_eq_of_lt hs0
    · rintro ⟨hsize, hdvd, hne⟩
      have hmod := (mod_eq_start0_iff low p i hp).mp hdvd
      obtain ⟨k0, hk0⟩ := (exists_start0_iff low p i hp).mpr hmod
      have hk0pos : 1 ≤ k0 := by
        rcases Nat.eq_zero_or_pos k0 with rfl | h
        · exfalso
          apply hne
          simp only [Nat.zero_mul, Nat.add_zero] at hk0
          omega
        · exact h
      have hsm : k0 * p = (k0 - 1) * p + p := by
        have h5 : k0 = k0 - 1 + 1 := by omega
        nth_rewrite 1 [h5]
        ring
      refine ⟨k0 - 1, ?_, by omega⟩
      rw [segMarkCount_spec _ _ _ _ hp]
      omega
  · have hseg : segStart low p = (p - low % p) % p := by
      simp only [segStart]
      rw [if_neg hif]
    rw [hseg]
    constructor
    · rintro ⟨k, hk, rfl⟩
      rw [segMarkCount_spec _ _ _ _ hp] at hk
      have hdvd : p ∣ (low + ((p - low % p) % p + k * p)) := by
        rw [mod_eq_start0_iff low p _ hp, Nat.add_mul_mod_self_right]
        exact Nat.mod_eq_of_lt hs0
      refine ⟨hk, hdvd, ?_⟩
      intro heq
      apply hif
      have hlt : (p - low % p) % p + k * p < p := by omega
      have hmod2 : ((p - low % p) % p + k * p) % p = (p - low % p) % p := by
        rw [Nat.add_mul_mod_self_right]
        exact Nat.mod_eq_of_lt hs0
      rw [Nat.mod_eq_of_lt hlt] at hmod2
      omega
    · rintro ⟨hsize, hdvd, hne⟩
      have hmod := (mod_eq_start0_iff low p i hp).mp hdvd
      obtain ⟨k0, hk0⟩ := (exists_start0_iff low p i hp).mpr hmod
      refine ⟨k0, ?_, hk0⟩
      rw [segMarkCount_spec _ _ _ _ hp]
      omega

theorem markSeg_getD (low size p : Nat) (hp : 1 ≤ p) (hl : 1 ≤ low) (s : List Bool) (i : Nat) :
    ((markSeg low size s p).getD i false = true ↔
      (s.getD i false = true ∧ ¬(i < size ∧ p ∣ (low + i) ∧ low + i ≠ p))) := by
  rw [markSeg, setFalseStep_getD]
  constructor
  · rintro ⟨h1, h2⟩
    refine ⟨h1, ?_⟩
    intro hmem
    obtain ⟨k, hk, hik⟩ := (segStart_mem_iff low size p i hp hl).mpr hmem
    exact h2 k hk hik
  · rintro ⟨h1, h2⟩
    refine ⟨h1, ?_⟩
    intro k hk hik
    exact h2 ((segStart_mem_iff low size p i hp hl).mp ⟨k, hk, hik⟩)

theorem foldl_markSeg_length (low size : Nat) (ps : List Nat) (s : List Bool) :
    (ps.foldl (markSeg low size) s).length = s.length := by
  induction ps generalizing s with
  | nil => rfl
  | cons q t ih =>
    rw [List.foldl_cons, ih, markSeg, setFalseStep_length]

theorem foldl_markSeg_getD (low size : Nat) (hl : 1 ≤ low) (ps : List Nat)
    (hps : ∀ p ∈ ps, 1 ≤ p) (s : List Bool) (i : Nat) :
    ((ps.foldl (markSeg low size) s).getD i false = true ↔
      (s.getD i false = true ∧
        ∀ p ∈ ps, ¬(i < size ∧ p ∣ (low + i) ∧ low + i ≠ p))) := by
  induction ps generalizing s with
  | nil => simp
  | cons q t ih =>
    rw [List.foldl_cons]
    rw [ih (fun p hp => hps p (List.mem_cons_of_mem q hp))]
    rw [markSeg_getD low size q (hps q (List.mem_cons_self q t)) hl]
    constructor
    · rintro ⟨⟨h1, h2⟩, h3⟩
      refine ⟨h1, ?_⟩
      intro p hp
      rcases List.mem_cons.mp hp with rfl | hp'
      · exact h2
      · exact h3 p hp'
    · rintro ⟨h1, h2⟩
      exact ⟨⟨h1, h2 q (List.mem_cons_self q t)⟩,
        fun p hp => h2 p (List.mem_cons_of_mem q hp)⟩

theorem seg_no_factor_iff_prime (high m : Nat) (h2 : 2 ≤ m) (hmh : m < high) :
    (∀ p, Nat.Prime p → p ≤ segLimit high → ¬(p ∣ m ∧ m ≠ p)) ↔ m.Prime := by
  constructor
  · intro h
    by_contra hnp
    obtain ⟨q, hq, hqd, hqs, hql⟩ := composite_small_factor h2 hnp
    refine h q hq ?_ ⟨hqd, by omega⟩
    have h3 : q ≤ Nat.sqrt high := Nat.le_sqrt.mpr (by omega)
    rw [segLimit]
    omega
  · intro hm p hp hpl
    rintro ⟨hpd, hne⟩
    rcases Nat.Prime.eq_one_or_self_of_dvd hm p hpd with h1 | h1
    · exact absurd h1 hp.ne_one
    · exact hne h1.symm

theorem ensure_inv {c : Cache} (hc : CacheInv c) (limit : Nat) :
    CacheInv (ensure_base_primes limit c) := by
  rw [ensure_base_primes]
  split
  · exact sieve_simple_eq limit
  · exact hc

theorem ensure_le (c : Cache) (limit : Nat) :
    limit ≤ (ensure_base_primes limit c).base_max := by
  by_cases h : c.base_max < limit
  · rw [ensure_base_primes, if_pos h]
  · rw [ensure_base_primes, if_neg h]
    omega

theorem ensure_mono (c : Cache) (limit : Nat) :
    c.base_max ≤ (ensure_base_primes limit c).base_max := by
  by_cases h : c.base_max < limit
  · rw [ensure_base_primes, if_pos h]
    exact le_of_lt h
  · rw [ensure_base_primes, if_neg h]

theorem applyEnsures_inv {c : Cache} (hc : CacheInv c) (ls : List Nat) :
    CacheInv (applyEnsures c ls) := by
  induction ls generalizing c with
  | nil => exact hc
  | cons a t ih => exact ih (ensure_inv hc a)

theorem card_filter_range (n : Nat) (P : Nat → Prop) [DecidablePred P] :
    ((Finset.range n).filter P).card =
      ((List.range n).filter (fun m => decide (P m))).length := rfl

theorem length_filter_range_shift (low' high : Nat) :
    ((List.range (high - low')).filter (fun i => decide ((low' + i).Prime))).length =
      ((List.range high).filter (fun m => decide (low' ≤ m ∧ m.Prime))).length := by
  rcases le_or_lt low' high with h | h
  · obtain ⟨d, rfl⟩ : ∃ d, high = low' + d := ⟨high - low', by omega⟩
    rw [show low' + d - low' = d from by omega]
    rw [List.range_add, List.filter_append]
    have h1 : (List.range low').filter (fun m => decide (low' ≤ m ∧ m.Prime)) = [] := by
      rw [List.filter_eq_nil_iff]
      intro a ha
      rw [List.mem_range] at ha
      simp only [decide_eq_true_eq]
      rintro ⟨hle, -⟩
      omega
    rw [h1, List.nil_append, List.filter_map, List.length_map]
    congr 1
    apply List.filter_congr
    intro x hx
    apply bool_eq_of_iff
    simp [Nat.le_add_right]
  · rw [show high - low' = 0 from by omega]
    have h1 : (List.range high).filter (fun m => decide (low' ≤ m ∧ m.Prime)) = [] := by
      rw [List.filter_eq_nil_iff]
      intro a ha
      rw [List.mem_range] at ha
      simp only [decide_eq_true_eq]
      rintro ⟨hle, -⟩
      omega
    rw [h1]
    rfl

theorem segmented_sieve_segment_def (low high i : Nat) (c : Cache) :
    segmented_sieve_segment (low, high, i) c =
      ((((ensure_base_primes (segLimit high) c).base_primes.filter
            (fun p => decide (p ≤ segLimit high))).foldl
          (markSeg (if low < 2 then 2 else low) (high - (if low < 2 then 2 else low)))
          (List.replicate (high - (if low < 2 then 2 else low)) true)).count true,
        ensure_base_primes (segLimit high) c) := rfl

theorem segCount_eq (low high i : Nat) (c : Cache) (hc : CacheInv c) :
    (segmented_sieve_segment (low, high, i) c).1 =
      ((Finset.range high).filter (fun m => max low 2 ≤ m ∧ m.Prime)).card := by
  rw [segmented_sieve_segment_def, card_filter_range]
  have hcc : CacheInv (ensure_base_primes (segLimit high) c) := ensure_inv hc _
  have hcc' : (ensure_base_primes (segLimit high) c).base_primes =
      primesBelow ((ensure_base_primes (segLimit high) c).base_max + 1) := hcc
  have hle : segLimit high ≤ (ensure_base_primes (segLimit high) c).base_max :=
    ensure_le c _
  rw [show ((ensure_base_primes (segLimit high) c).base_primes.filter
      (fun p => decide (p ≤ segLimit high))) = primesBelow (segLimit high + 1) from by
    rw [hcc']
    exact primesBelow_filter_le _ _ hle]
  have hclamp : (if low < 2 then 2 else low) = max low 2 := by
    split <;> omega
  rw [hclamp]
  have hlo2 : 2 ≤ max low 2 := by omega
  rw [count_true_eq, foldl_markSeg_length, List.length_replicate]
  have hchar : ∀ j ∈ List.range (high - max low 2),
      (((primesBelow (segLimit high + 1)).foldl (markSeg (max low 2) (high - max low 2))
          (List.replicate (high - max low 2) true)).getD j false) =
        decide ((max low 2 + j).Prime) := by
    intro j hj
    rw [List.mem_range] at hj
    apply bool_eq_of_iff
    rw [foldl_markSeg_getD (max low 2) (high - max low 2) (by omega)
      (primesBelow (segLimit high + 1))
      (fun p hp => by
        have h2 := ((primesBelow_mem p _).mp hp).1.two_le
        omega)
      (List.replicate (high - max low 2) true) j]
    rw [replicate_getD]
    simp only [decide_eq_true_eq]
    constructor
    · rintro ⟨-, hall⟩
      rw [← seg_no_factor_iff_prime high (max low 2 + j) (by omega) (by omega)]
      intro p hpp hple hcon
      exact hall p ((primesBelow_mem p _).mpr ⟨hpp, by omega⟩) ⟨hj, hcon.1, hcon.2⟩
    · intro hpr
      refine ⟨hj, ?_⟩
      intro p hp
      rintro ⟨-, hdvd, hne⟩
      have hmem := (primesBelow_mem p _).mp hp
      exact ((seg_no_factor_iff_prime high (max low 2 + j) (by omega) (by omega)).mpr hpr)
        p hmem.1 (by omega) ⟨hdvd, hne⟩
  rw [List.filter_congr hchar]
  rw [length_filter_range_shift (max low 2) high]

theorem primeCount_split (a b c : Nat) (hab : a ≤ b) (hbc : b ≤ c) :
    ((Finset.range b).filter (fun m => a ≤ m ∧ m.Prime)).card
      + ((Finset.range c).filter (fun m => b ≤ m ∧ m.Prime)).card
      = ((Finset.range c).filter (fun m => a ≤ m ∧ m.Prime)).card := by
  have hdisj : Disjoint ((Finset.range b).filter (fun m => a ≤ m ∧ m.Prime))
      ((Finset.range c).filter (fun m => b ≤ m ∧ m.Prime)) := by
    rw [Finset.disjoint_left]
    intro m hm1 hm2
    rw [Finset.mem_filter, Finset.mem_range] at hm1 hm2
    obtain ⟨hx1, -, -⟩ := hm1
    obtain ⟨-, hx2, -⟩ := hm2
    omega
  rw [← Finset.card_union_of_disjoint hdisj]
  congr 1
  ext m
  simp only [Finset.mem_union, Finset.mem_filter, Finset.mem_range]
  constructor
  · rintro (⟨h1, h2, h3⟩ | ⟨h1, h2, h3⟩)
    · exact ⟨by omega, by omega, h3⟩
    · exact ⟨h1, by omega, h3⟩
  · rintro ⟨h1, h2, h3⟩
    rcases le_or_lt b m with h | h
    · right
      exact ⟨h1, h, h3⟩
    · left
      exact ⟨h, h2, h3⟩

theorem chain_le_getLast (a : Nat) (t : List Nat) (h : List.Chain' (· ≤ ·) (a :: t))
    (high : Nat) (hl : (a :: t).getLast? = some high) : a ≤ high := by
  induction t generalizing a with
  | nil =>
    simp only [List.getLast?_singleton, Option.some.injEq] at hl
    omega
  | cons b t ih =>
    rw [List.getLast?_cons_cons] at hl
    have hab := (List.chain'_cons.mp h).1
    have hbt := (List.chain'_cons.mp h).2
    exact le_trans hab (ih b hbt hl)

theorem segmentsSum_cons (c : Cache) (a b : Nat) (rest : List (Nat × Nat)) :
    segmentsSum c ((a, b) :: rest) =
      (segmented_sieve_segment (a, b, 0) c).1 + segmentsSum c rest := by
  simp [segmentsSum]

theorem adjPairs_sum (c : Cache) (hc : CacheInv c) (t : List Nat) :
    ∀ (a high : Nat), 2 ≤ a → List.Chain' (· ≤ ·) (a :: t) →
      (a :: t).getLast? = some high →
      segmentsSum c (adjPairs (a :: t)) =
        ((Finset.range high).filter (fun m => a ≤ m ∧ m.Prime)).card := by
  induction t with
  | nil =>
    intro a high h2 hch hl
    simp only [List.getLast?_singleton, Option.some.injEq] at hl
    subst hl
    rw [show adjPairs [a] = [] from rfl, show segmentsSum c [] = 0 from rfl]
    symm
    rw [Finset.card_eq_zero, Finset.filter_eq_empty_iff]
    intro m hm
    rw [Finset.mem_range] at hm
    rintro ⟨h1, -⟩
    omega
  | cons b t ih =>
    intro a high h2 hch hl
    rw [List.getLast?_cons_cons] at hl
    have hab := (List.chain'_cons.mp hch).1
    have hch' := (List.chain'_cons.mp hch).2
    have hbh : b ≤ high := chain_le_getLast b t hch' high hl
    rw [show adjPairs (a :: b :: t) = (a, b) :: adjPairs (b :: t) from rfl]
    rw [segmentsSum_cons, segCount_eq a b 0 c hc]
    rw [ih b high (by omega) hch' hl]
    rw [show max a 2 = a from by omega]
    exact primeCount_split a b high hab hbh

theorem mainLoop_acc (D : Nat) (pre : List Ev) (hpre : ∀ e ∈ pre, isEarlyRes D e = true)
    (rest : List Ev) (tp ts : Nat) :
    mainLoop D (pre ++ rest) tp ts =
      mainLoop D rest (tp + (pre.map evCount).sum) (ts + pre.length) := by
  induction pre generalizing tp ts with
  | nil => simp
  | cons e t ih =>
    have he := hpre e (List.mem_cons_self e t)
    cases e with
    | res cn tm =>
      simp only [isEarlyRes, decide_eq_true_eq] at he
      rw [List.cons_append]
      simp only [mainLoop]
      rw [if_neg (by omega)]
      rw [ih (fun e' he' => hpre e' (List.mem_cons_of_mem _ he'))]
      simp only [List.map_cons, List.sum_cons, List.length_cons, evCount]
      have h1 : tp + cn + (t.map evCount).sum = tp + (cn + (t.map evCount).sum) := by omega
      have h2 : ts + 1 + t.length = ts + (t.length + 1) := by omega
      rw [h1, h2]
    | intr =>
      simp only [isEarlyRes] at he
      exact absurd he (by simp)

theorem mainLoop_none_of_interrupt (D : Nat) :
    ∀ evs : List Ev, interruptReached D evs = true →
      ∀ tp ts, mainLoop D evs tp ts = none := by
  intro evs
  induction evs with
  | nil =>
    intro h
    simp [interruptReached] at h
  | cons e t ih =>
    intro h tp ts
    cases e with
    | intr => rfl
    | res cn tm =>
      simp only [interruptReached] at h
      by_cases hd : D ≤ tm
      · rw [if_pos hd] at h
        exact absurd h (by simp)
      · rw [if_neg hd] at h
        simp only [mainLoop]
        rw [if_neg hd]
        exact ih h (tp + cn) (ts + 1)

theorem sliceLen_eq (size : Int) (start p : Nat) (hp : 1 ≤ p) :
    sliceLen size.toNat start size p = ((size - 1 - start) / p + 1).toNat := by
  rw [sliceLen]
  rcases le_or_lt size 0 with h | h
  · have hL : (size.toNat : Int) = 0 := by omega
    have hstop : (if size < 0 then max (size + (size.toNat : Int)) 0
        else min size (size.toNat : Int)) = 0 := by
      rcases lt_or_eq_of_le h with h' | h'
      · rw [if_pos h', hL]
        omega
      · rw [if_neg (by omega), hL]
        omega
    rw [hstop]
    have hstart : min (start : Int) ((size.toNat : Nat) : Int) = 0 := by
      rw [hL]
      omega
    rw [hstart]
    have hnum : (0 : Int) - 0 + p - 1 = (p : Int) - 1 := by ring
    rw [hnum]
    have hdiv : ((p : Int) - 1) / p = 0 := Int.ediv_eq_zero_of_lt (by omega) (by omega)
    rw [hdiv]
    have hneg : (size - 1 - start) / p < 0 := Int.ediv_neg' (by omega) (by omega)
    omega
  · have hL : (size.toNat : Int) = size := by omega
    have hstop : (if size < 0 then max (size + (size.toNat : Int)) 0
        else min size (size.toNat : Int)) = size := by
      rw [if_neg (by omega), hL]
      omega
    rw [hstop]
    rcases le_or_lt size (start : Int) with hss | hss
    · have hstart : min (start : Int) ((size.toNat : Nat) : Int) = size := by
        rw [hL]
        omega
      rw [hstart]
      have hnum : size - size + p - 1 = (p : Int) - 1 := by ring
      rw [hnum]
      have hdiv : ((p : Int) - 1) / p = 0 := Int.ediv_eq_zero_of_lt (by omega) (by omega)
      rw [hdiv]
      have hneg : (size - 1 - start) / p < 0 := Int.ediv_neg' (by omega) (by omega)
      omega
    · have hstart : min (start : Int) ((size.toNat : Nat) : Int) = start := by
        rw [hL]
        omega
      rw [hstart]
      have hnum : size - start + p - 1 = (size - 1 - start) + 1 * p := by ring
      rw [hnum]
      rw [Int.add_mul_ediv_right _ _ (show (p : Int) ≠ 0 from by omega)]

theorem sqrt_three : Nat.sqrt 3 = 1 := by
  symm
  rw [Nat.eq_sqrt]
  constructor
  · decide
  · decide

theorem sqrt_four : Nat.sqrt 4 = 2 := by
  symm
  rw [Nat.eq_sqrt]
  constructor
  · decide
  · decide

/-- Claim C3: sieve_simple n is the strictly increasing list of exactly the
primes up to n, is empty for n below 2, and sieve_simple 30 is the ten
primes up to 30. -/
theorem sieve_simple_correct (n : Nat) :
    (∀ p : Nat, p ∈ sieve_simple n ↔ (Nat.Prime p ∧ 2 ≤ p ∧ p ≤ n)) ∧
    List.Sorted (· < ·) (sieve_simple n) ∧
    (n < 2 → sieve_simple n = []) ∧
    sieve_simple 30 = [2, 3, 5, 7, 11, 13, 17, 19, 23, 29] := by
  refine ⟨?_, ?_, ?_, ?_⟩
  · intro p
    rw [sieve_simple_eq, primesBelow_mem]
    constructor
    · rintro ⟨hp, hlt⟩
      exact ⟨hp, hp.two_le, by omega⟩
    · rintro ⟨hp, -, hle⟩
      exact ⟨hp, by omega⟩
  · rw [sieve_simple_eq]
    exact primesBelow_sorted (n + 1)
  · intro h
    rw [sieve_simple, if_pos h]
  · rw [sieve_simple_eq]
    decide

/-- Witness for C3 at n = 1: the hypothesis n < 2 is discharged concretely. -/
theorem sieve_simple_correct_witness : (1 : Nat) < 2 ∧ sieve_simple 1 = [] :=
  ⟨by omega, (sieve_simple_correct 1).2.2.1 (by omega)⟩

/-- Claim C1: for 0 ≤ low ≤ high and any segment index and any complete
cache, segmented_sieve_segment returns exactly the number of primes in
[max low 2, high), and in particular 0 whenever high ≤ 2. -/
theorem segmented_sieve_segment_correct (low high i : Nat) (c : Cache)
    (hlh : low ≤ high) (hc : CacheInv c) :
    ((segmented_sieve_segment (low, high, i) c).1 =
        ((Finset.range high).filter (fun m => max low 2 ≤ m ∧ m.Prime)).card) ∧
    (high ≤ 2 → (segmented_sieve_segment (low, high, i) c).1 = 0) := by
  refine ⟨segCount_eq low high i c hc, fun hh => ?_⟩
  rw [segCount_eq low high i c hc]
  rw [Finset.card_eq_zero, Finset.filter_eq_empty_iff]
  intro m hm
  rw [Finset.mem_range] at hm
  rintro ⟨h1, -⟩
  omega

/-- Witness for C1 at the boundary segment (0, 2) with the complete cache
for bound 2. -/
theorem segmented_sieve_segment_correct_witness :
    (0 : Nat) ≤ 2 ∧ CacheInv ⟨[2], 2⟩ ∧
      ((segmented_sieve_segment (0, 2, 0) ⟨[2], 2⟩).1 =
        ((Finset.range 2).filter (fun m => max 0 2 ≤ m ∧ m.Prime)).card) ∧
      ((2 : Nat) ≤ 2 → (segmented_sieve_segment (0, 2, 0) ⟨[2], 2⟩).1 = 0) :=
  ⟨by omega, by decide,
    (segmented_sieve_segment_correct 0 2 0 ⟨[2], 2⟩ (by omega) (by decide)).1,
    (segmented_sieve_segment_correct 0 2 0 ⟨[2], 2⟩ (by omega) (by decide)).2⟩

/-- Claim C7: the count segmented_sieve_segment returns for a fixed
(low, high) is the same from any two cache states that satisfy the
completeness invariant, for any segment indices. -/
theorem segment_count_deterministic (low high i j : Nat) (c1 c2 : Cache)
    (h1 : CacheInv c1) (h2 : CacheInv c2) :
    (segmented_sieve_segment (low, high, i) c1).1 =
      (segmented_sieve_segment (low, high, j) c2).1 :=
  (segCount_eq low high i c1 h1).trans (segCount_eq low high j c2 h2).symm

/-- Witness for C7: two different complete caches and different indices
give the same count on the segment [2, 10). -/
theorem segment_count_deterministic_witness :
    CacheInv ⟨[2], 2⟩ ∧ CacheInv ⟨[2, 3], 3⟩ ∧
      (segmented_sieve_segment (2, 10, 0) ⟨[2], 2⟩).1 =
        (segmented_sieve_segment (2, 10, 7) ⟨[2, 3], 3⟩).1 :=
  ⟨by decide, by decide,
    segment_count_deterministic 2 10 0 7 ⟨[2], 2⟩ ⟨[2, 3], 3⟩ (by decide) (by decide)⟩

/-- Claim C5: after init_worker b and any sequence of ensure_base_primes
calls the cache invariant holds, and one further ensure_base_primes call
never decreases base_max. -/
theorem cache_invariant_holds (b : Nat) (hb : 2 ≤ b) (ls : List Nat) (limit : Nat) :
    CacheInv (applyEnsures (init_worker b) ls) ∧
    (applyEnsures (init_worker b) ls).base_max ≤
      (ensure_base_primes limit (applyEnsures (init_worker b) ls)).base_max :=
  ⟨applyEnsures_inv (show CacheInv (init_worker b) from sieve_simple_eq b) ls,
    ensure_mono _ _⟩

/-- Witness for C5 with b = 2 and the call sequence ensure 4 then ensure 3. -/
theorem cache_invariant_holds_witness :
    (2 : Nat) ≤ 2 ∧ CacheInv (applyEnsures (init_worker 2) [4]) ∧
      (applyEnsures (init_worker 2) [4]).base_max ≤
        (ensure_base_primes 3 (applyEnsures (init_worker 2) [4])).base_max :=
  ⟨by omega, (cache_invariant_holds 2 (by omega) [4] 3).1,
    (cache_invariant_holds 2 (by omega) [4] 3).2⟩

/-- Claim C6: from any cache state, after ensure_base_primes l1 a second
call with l2 ≤ l1 changes nothing, so no recomputation happens. -/
theorem ensure_base_primes_idempotent (c : Cache) (l1 l2 : Nat) (h : l2 ≤ l1) :
    ensure_base_primes l2 (ensure_base_primes l1 c) = ensure_base_primes l1 c := by
  have h1 : l1 ≤ (ensure_base_primes l1 c).base_max := ensure_le c l1
  rw [ensure_base_primes]
  rw [if_neg (by omega)]

/-- Witness for C6: ensure 5 then ensure 3 on a small cache. -/
theorem ensure_base_primes_idempotent_witness :
    (3 : Nat) ≤ 5 ∧
      ensure_base_primes 3 (ensure_base_primes 5 ⟨[2], 2⟩) = ensure_base_primes 5 ⟨[2], 2⟩ :=
  ⟨by omega, ensure_base_primes_idempotent ⟨[2], 2⟩ 5 3 (by omega)⟩

/-- Claim C2: for high ≥ 2 and any monotone list of cut points from 2 to
high, the per-segment counts of segmented_sieve_segment over the induced
consecutive segments sum to the length of sieve_simple (high - 1). -/
theorem partition_sum_correct (high : Nat) (hh : 2 ≤ high) (cuts : List Nat) (c : Cache)
    (hc : CacheInv c) (hhead : cuts.head? = some 2) (hlast : cuts.getLast? = some high)
    (hmono : List.Chain' (· ≤ ·) cuts) :
    segmentsSum c (adjPairs cuts) = (sieve_simple (high - 1)).length := by
  cases cuts with
  | nil => simp at hhead
  | cons a t =>
    simp only [List.head?_cons, Option.some.injEq] at hhead
    subst hhead
    rw [adjPairs_sum c hc t 2 high (by omega) hmono hlast]
    rw [sieve_simple_eq, show high - 1 + 1 = high from by omega]
    rw [card_filter_range]
    unfold primesBelow
    congr 1
    apply List.filter_congr
    intro m hm
    apply bool_eq_of_iff
    simp only [decide_eq_true_eq, isPrimeB_iff]
    constructor
    · rintro ⟨-, hp⟩
      exact hp
    · intro hp
      exact ⟨hp.two_le, hp⟩

/-- Witness for C2: the partition of [2, 100) into [2, 50) and [50, 100)
sums to the length of sieve_simple 99, which is 25. -/
theorem partition_sum_correct_witness :
    (2 : Nat) ≤ 100 ∧ CacheInv ⟨[2], 2⟩ ∧
      segmentsSum ⟨[2], 2⟩ (adjPairs [2, 50, 100]) = (sieve_simple (100 - 1)).length ∧
      (sieve_simple 99).length = 25 :=
  ⟨by omega, by decide,
    partition_sum_correct 100 (by omega) [2, 50, 100] ⟨[2], 2⟩ (by decide) (by decide)
      (by decide)
      (List.chain'_cons.mpr ⟨by omega, List.chain'_cons.mpr ⟨by omega,
        List.chain'_singleton 100⟩⟩),
    by rw [sieve_simple_eq]; decide⟩

/-- Counterexample for C4 as stated: at high = 4 the limit the code
computes, int(math.isqrt(high)) + 1 = 3, differs from
floor(sqrt(high - 1)) + 1 = 2, observably through the cache bound the call
leaves behind. -/
theorem segLimit_claim_counterexample :
    segLimit 4 ≠ Nat.sqrt (4 - 1) + 1 ∧
    (segmented_sieve_segment (2, 4, 0) (⟨[2], 2⟩ : Cache)).2.base_max = 3 := by
  have h3 : Nat.sqrt 3 = 1 := sqrt_three
  have h4 : Nat.sqrt 4 = 2 := sqrt_four
  constructor
  · rw [segLimit, show (4 : Nat) - 1 = 3 from rfl, h3, h4]
    omega
  · rw [segmented_sieve_segment_def]
    show (ensure_base_primes (segLimit 4) ⟨[2], 2⟩).base_max = 3
    rw [segLimit, h4, ensure_base_primes,
      if_pos (show (Cache.mk [2] 2).base_max < 2 + 1 from by decide)]

/-- Claim C4 as amended: the base-prime limit computed before
ensure_base_primes is floor(sqrt(high)) + 1, which is at least the claimed
floor(sqrt(high - 1)) + 1 and is the bound the call ensures the cache
covers. -/
theorem segLimit_correct (low high i : Nat) (c : Cache) (hh : 2 ≤ high) :
    segLimit high = Nat.sqrt high + 1 ∧
    Nat.sqrt (high - 1) + 1 ≤ segLimit high ∧
    segLimit high ≤ (segmented_sieve_segment (low, high, i) c).2.base_max := by
  refine ⟨rfl, ?_, ?_⟩
  · have h1 := Nat.sqrt_le_sqrt (show high - 1 ≤ high from by omega)
    rw [segLimit]
    omega
  · rw [segmented_sieve_segment_def]
    exact ensure_le c (segLimit high)

/-- Witness for the amended claim of C4 at the segment (2, 4). -/
theorem segLimit_correct_witness :
    (2 : Nat) ≤ 4 ∧
      (segLimit 4 = Nat.sqrt 4 + 1 ∧ Nat.sqrt (4 - 1) + 1 ≤ segLimit 4 ∧
        segLimit 4 ≤ (segmented_sieve_segment (2, 4, 0) (⟨[2], 2⟩ : Cache)).2.base_max) :=
  ⟨by omega, segLimit_correct 2 4 0 ⟨[2], 2⟩ (by omega)⟩

/-- Counterexample for C8 as stated: on a trace where one result with count
5 is absorbed and then a KeyboardInterrupt arrives, main prints only the
interruption notice, not a summary carrying the accumulated totals. -/
theorem interrupt_claim_counterexample :
    mainModel 120 [Ev.res 5 0, Ev.intr] 1 = MainOutput.interrupted ∧
    mainModel 120 [Ev.res 5 0, Ev.intr] 1 ≠ MainOutput.summary 1 5 1 := by
  decide

/-- Claim C8 as amended: a KeyboardInterrupt reaching the coordinator loop
does not fail the run and stops dispatch and absorption, but main then
prints only the interruption notice; the performance summary with the
accumulated totals is skipped. -/
theorem interrupt_notice_only (D : Nat) (evs : List Ev) (fe : Nat)
    (h : interruptReached D evs = true) :
    mainModel D evs fe = MainOutput.interrupted := by
  simp only [mainModel]
  rw [mainLoop_none_of_interrupt D evs h 0 0]

/-- Witness for the amended claim of C8 on a concrete interrupted trace. -/
theorem interrupt_notice_only_witness :
    interruptReached 120 [Ev.res 5 0, Ev.intr] = true ∧
      mainModel 120 [Ev.res 5 0, Ev.intr] 7 = MainOutput.interrupted :=
  ⟨by decide, interrupt_notice_only 120 [Ev.res 5 0, Ev.intr] 7 (by decide)⟩

/-- Claim C9: when every result before some arrival with elapsed ≥ D is
early, the loop totals are exactly the counts absorbed up to and
including that cutoff arrival, and nothing after it — whatever is still in
flight — is ever absorbed. -/
theorem deadline_cutoff_correct (D : Nat) (pre post : List Ev) (cnt el : Nat)
    (hpre : ∀ e ∈ pre, isEarlyRes D e = true) (hel : D ≤ el) :
    mainLoop D (pre ++ Ev.res cnt el :: post) 0 0 =
      some ((pre.map evCount).sum + cnt, pre.length + 1) := by
  rw [mainLoop_acc D pre hpre _ 0 0]
  simp only [mainLoop]
  rw [if_pos hel]
  simp only [Nat.zero_add]

/-- Witness for C9: one early result, a cutoff result, and one discarded
in-flight result. -/
theorem deadline_cutoff_correct_witness :
    mainLoop 1 [Ev.res 2 0, Ev.res 3 5, Ev.res 7 9] 0 0 = some (5, 2) := by
  have h := deadline_cutoff_correct 1 [Ev.res 2 0] [Ev.res 7 9] 3 5 (by decide) (by omega)
  simpa [evCount] using h

/-- Claim C10: in both sieves the replacement byte length equals the number
of indices the extended slice selects, for every base prime and every
start offset, including the degenerate empty cases. -/
theorem slice_assignment_wellformed (n p low high : Nat) (hn : 2 ≤ n) (hp : p.Prime)
    (hlh : low ≤ high) :
    (sliceLen (n + 1) (p * p) ((n : Int) + 1) p = (simpleMarkCount n p).toNat) ∧
    (∀ start : Nat,
      sliceLen ((high : Int) - (if low < 2 then 2 else low : Nat)).toNat start
          ((high : Int) - (if low < 2 then 2 else low : Nat)) p =
        (segMarkCount ((high : Int) - (if low < 2 then 2 else low : Nat)) start p).toNat) := by
  have hp1 : 1 ≤ p := le_trans (by omega) hp.two_le
  constructor
  · have h := sliceLen_eq ((n : Int) + 1) (p * p) p hp1
    rw [show ((n : Int) + 1).toNat = n + 1 from by omega] at h
    rw [h, simpleMarkCount]
    rw [show (n : Int) + 1 - 1 - ((p * p : Nat) : Int) = (n : Int) - (p : Int) * p
      from by push_cast; ring]
  · intro start
    exact sliceLen_eq _ start p hp1

/-- Witness for C10 at n = 2, p = 2, segment (0, 2), start 1. -/
theorem slice_assignment_wellformed_witness :
    (2 : Nat) ≤ 2 ∧ Nat.Prime 2 ∧ (0 : Nat) ≤ 2 ∧
      (sliceLen (2 + 1) (2 * 2) ((2 : Int) + 1) 2 = (simpleMarkCount 2 2).toNat) ∧
      (sliceLen ((2 : Int) - ((if (0 : Nat) < 2 then 2 else (0 : Nat) : Nat) : Int)).toNat 1
          ((2 : Int) - ((if (0 : Nat) < 2 then 2 else (0 : Nat) : Nat) : Int)) 2 =
        (segMarkCount ((2 : Int) - ((if (0 : Nat) < 2 then 2 else (0 : Nat) : Nat) : Int))
          1 2).toNat) :=
  ⟨by omega, by decide, by omega,
    (slice_assignment_wellformed 2 2 0 2 (by omega) (by decide) (by omega)).1,
    (slice_assignment_wellformed 2 2 0 2 (by omega) (by decide) (by omega)).2 1⟩
